import Mathlib

/-!
# Verification of the TinyMCE `DomParser` core

Shallow embedding of `src` (`core/api/html/DomParser.ts`) of the repository:
the schema-driven sanitizing HTML parser.  The AST node tree is embedded as a
pure rose tree; the imperative walks of the source (which use `node.walk()`
plus in-place mutation) are embedded as structurally/well-founded recursive
functions whose recursion mirrors the source's control flow (in particular the
"unwrap and resume from the predecessor" step of the validation walker is the
recursion `walkList p (children ++ rest)`).

Collaborator code of the repository that is not part of the parser source
(`AstNode` structural operations, `NodeType`, `ParserUtils.isEmpty`,
`isPaddedWithNbsp`, `paddEmptyNode`, `isLineBreakNode`) is modelled from the
spec; the definitions concerned carry a `Modelled from the spec:` doc comment.
-/

namespace TinyDomParser

/-! ## AstNode: the tree node type

`AstNode` (spec §3): type tag (DOM numeric codes: 1 element, 3 text, 8 comment,
4 CDATA, 7 processing instruction, 11 document fragment), lowercased `name`,
text `value`, ordered attribute list, `raw` flag, and children.  The embedding
is a pure rose tree; parent/sibling links of the source are represented by the
position of a node in its parent's `children` list. -/

inductive AstNode : Type where
  | mk (type : Nat) (name : String) (value : String)
      (attrs : List (String × String)) (raw : Bool)
      (children : List AstNode)

namespace AstNode

def type : AstNode → Nat
  | .mk t _ _ _ _ _ => t

def name : AstNode → String
  | .mk _ n _ _ _ _ => n

def value : AstNode → String
  | .mk _ _ v _ _ _ => v

def attrs : AstNode → List (String × String)
  | .mk _ _ _ a _ _ => a

def raw : AstNode → Bool
  | .mk _ _ _ _ r _ => r

def children : AstNode → List AstNode
  | .mk _ _ _ _ _ cs => cs

/-- `node.attr(name)` getter: the attribute's value, or `undefined`. -/
def attr (n : AstNode) (a : String) : Option String :=
  (n.attrs.find? (·.1 == a)).map (·.2)

def hasAttr (n : AstNode) (a : String) : Bool :=
  n.attrs.any (·.1 == a)

def setName (n : AstNode) (s : String) : AstNode :=
  .mk n.type s n.value n.attrs n.raw n.children

def setChildren (n : AstNode) (cs : List AstNode) : AstNode :=
  .mk n.type n.name n.value n.attrs n.raw cs

end AstNode

mutual

/-- Node count of a tree (strings not measured, so renaming a node preserves
the measure); used both as termination measure for the walks and to show the
synthetic root cannot occur among walked nodes. -/
def nsize : AstNode → Nat
  | .mk _ _ _ _ _ cs => 1 + nsizeList cs

def nsizeList : List AstNode → Nat
  | [] => 0
  | c :: cs => nsize c + nsizeList cs

end

@[simp] theorem nsize_mk (t n v a r cs) :
    nsize (.mk t n v a r cs) = 1 + nsizeList cs := by
  rw [nsize]

@[simp] theorem nsizeList_nil : nsizeList [] = 0 := by rw [nsizeList]

@[simp] theorem nsizeList_cons (c cs) :
    nsizeList (c :: cs) = nsize c + nsizeList cs := by rw [nsizeList]

theorem nsizeList_append (l₁ l₂ : List AstNode) :
    nsizeList (l₁ ++ l₂) = nsizeList l₁ + nsizeList l₂ := by
  induction l₁ with
  | nil => simp
  | cons c cs ih => simp [ih]; omega

theorem nsize_pos (n : AstNode) : 0 < nsize n := by
  cases n with
  | mk t nm v a r cs => simp

@[simp] theorem nsize_setName (n : AstNode) (s : String) :
    nsize (n.setName s) = nsize n := by
  cases n with
  | mk t nm v a r cs => rfl

theorem nsizeList_children_lt (n : AstNode) (rest : List AstNode) :
    nsizeList (n.children ++ rest) < nsizeList (n :: rest) := by
  cases n with
  | mk t nm v a r cs =>
    simp only [nsizeList_append, AstNode.children, nsizeList_cons, nsize_mk]
    omega

/-! ## Schema (external capability, spec §2/§3)

Only the queries the parser consumes: `getElementRule`, the `children`
nesting map, `isValidChild`, and the block / whitespace / non-empty element
sets.  Concrete schemas are finite association lists so every query is
executable. -/

/-- An element rule, as consumed by the parser (`SchemaElement`). -/
structure SchemaElement where
  outputName : Option String := none
  removeEmpty : Bool := false
  paddEmpty : Bool := false
  attributesForced : List (String × String) := []
  attributesDefault : List (String × String) := []
  /-- `none` models an absent (`undefined`) `attributesRequired` field. -/
  attributesRequired : Option (List String) := none
  removeEmptyAttrs : Bool := false
deriving DecidableEq, Repr

structure Schema where
  elements : List (String × SchemaElement)
  /-- `schema.children`: for each tracked element name, its allowed children. -/
  childrenMap : List (String × List String)
  blockElements : List String
  whiteSpaceElements : List String
  nonEmptyElements : List String

def Schema.getElementRule (s : Schema) (name : String) : Option SchemaElement :=
  (s.elements.find? (·.1 == name)).map (·.2)

def Schema.children (s : Schema) (name : String) : Option (List String) :=
  (s.childrenMap.find? (·.1 == name)).map (·.2)

/-- `schema.isValidChild(name, child)`: `!!(children[name] && children[name][child])`. -/
def Schema.isValidChild (s : Schema) (name child : String) : Bool :=
  match s.children name with
  | some cs => cs.contains child
  | none => false

/-- Line 228 / 481: `extend(makeMap('script,style,head,html,body,title,meta,param'), schema.getBlockElements())`. -/
def extendedBlockElements (s : Schema) : List String :=
  ["script", "style", "head", "html", "body", "title", "meta", "param"] ++ s.blockElements

/-! ## Settings and per-call arguments (spec §6) -/

/-- The JS value of `forced_root_block`: `boolean | string`. -/
inductive RootBlockValue where
  | bool (b : Bool)
  | str (s : String)
deriving DecidableEq, Repr

structure DomParserSettings where
  validate : Bool := true
  root_name : String := "body"
  padd_empty_with_br : Bool := false
  /-- `none` models an absent key. -/
  forced_root_block : Option RootBlockValue := none
  forced_root_block_attrs : List (String × String) := []

structure ParserArgs where
  /-- `none` models an absent `context` key. -/
  context : Option String := none
  isRootContent : Bool := false
  /-- `none` models `'forced_root_block' in args` being false. -/
  forced_root_block : Option RootBlockValue := none
  /-- The `invalid` output flag (input value models a pre-set key). -/
  invalid : Bool := false
deriving DecidableEq, Repr

/-- JS truthiness of a `string | undefined` value (`undefined` and `''` are falsy). -/
def jsTruthyStr : Option String → Bool
  | none => false
  | some s => !s.isEmpty

/-! ## `getRootBlockName` (lines 470–478) and its use in `parse` (lines 483–484, 556) -/

/-- Lines 470–478: `name === false` ↦ `''`, `name === true` ↦ `'p'`, otherwise
the value itself (`undefined` stays `undefined`). -/
def getRootBlockName : Option RootBlockValue → Option String
  | some (.bool false) => some ""
  | some (.bool true) => some "p"
  | some (.str s) => some s
  | none => none

/-- Line 483: `'forced_root_block' in args ? args.forced_root_block : settings.forced_root_block`. -/
def forcedRootBlockArg (settings : DomParserSettings) (args : ParserArgs) :
    Option RootBlockValue :=
  match args.forced_root_block with
  | some v => some v
  | none => settings.forced_root_block

/-- Line 484: the effective root block name of a parse call. -/
def rootBlockName (settings : DomParserSettings) (args : ParserArgs) : Option String :=
  getRootBlockName (forcedRootBlockArg settings args)

/-- Line 537: the synthetic root's name: `args.context || settings.root_name`. -/
def rootNodeName (settings : DomParserSettings) (args : ParserArgs) : String :=
  match args.context with
  | some c => if c.isEmpty then settings.root_name else c
  | none => settings.root_name

/-- Line 556: the guard `rootBlockName && (rootNode.name === 'body' || args.isRootContent)`
deciding whether `addRootBlocks` runs at all. -/
def rootBlockStageRuns (settings : DomParserSettings) (args : ParserArgs) : Bool :=
  jsTruthyStr (rootBlockName settings args) &&
    (rootNodeName settings args == "body" || args.isRootContent)

instance : Inhabited AstNode := ⟨.mk 0 "" "" [] false []⟩

/-- `toLowerCase` on tag names, written as a structural character map so that
concrete instances evaluate in the kernel (ASCII-only, which covers every tag
name involved). -/
def lowerString (s : String) : String := ⟨s.data.map Char.toLower⟩

/-! ## TreeImporter: `transferChildren` (lines 163–185) -/

/-- A node of the native (already sanitized) DOM tree handed to the importer:
numeric `nodeType`, `nodeName` (uppercase for elements, per the DOM), `data`
payload for text-like nodes, attributes and children. -/
inductive NativeNode : Type where
  | mk (nodeType : Nat) (nodeName : String) (data : String)
      (attrs : List (String × String)) (children : List NativeNode)

namespace NativeNode

def nodeType : NativeNode → Nat
  | .mk t _ _ _ _ => t

def nodeName : NativeNode → String
  | .mk _ n _ _ _ => n

def data : NativeNode → String
  | .mk _ _ d _ _ => d

def attrs : NativeNode → List (String × String)
  | .mk _ _ _ a _ => a

def children : NativeNode → List NativeNode
  | .mk _ _ _ _ cs => cs

end NativeNode

mutual

/-- Node count of a native tree; termination measure for the importer. -/
def nnsize : NativeNode → Nat
  | .mk _ _ _ _ cs => 1 + nnsizeList cs

def nnsizeList : List NativeNode → Nat
  | [] => 0
  | c :: cs => nnsize c + nnsizeList cs

end

@[simp] theorem nnsize_mk (t n d a cs) :
    nnsize (.mk t n d a cs) = 1 + nnsizeList cs := by rw [nnsize]

@[simp] theorem nnsizeList_nil : nnsizeList [] = 0 := by rw [nnsizeList]

@[simp] theorem nnsizeList_cons (c cs) :
    nnsizeList (c :: cs) = nnsize c + nnsizeList cs := by rw [nnsizeList]

theorem nnsize_pos (n : NativeNode) : 0 < nnsize n := by
  cases n with
  | mk t nm d a cs => simp

theorem nnsize_two_mul_lt (a b : Nat) (h : 0 < a) :
    2 * b + 1 < 2 * (a + b) + 1 := by omega

mutual

/-- Lines 165–183, the body of the `Arr.each` over `nativeParent.childNodes`
for one native child.  The `NodeType` predicates of the branch (a module not
under `src/`) are modelled from the spec: the five handled kinds are element
(1), text (3), comment (8), CDATA (4) and processing instruction (7); the
source tests them in the order `isElement`, then
`isComment || isText || isCData || isPi`.  `none` models the `return` that
silently drops a native node of any other type.  `isSpecial` is
`Arr.contains(['script', 'style'], parent.name)` (line 164). -/
def transferChild (parentName : String) (nc : NativeNode) : Option AstNode :=
  let isSpecial := parentName == "script" || parentName == "style"
  let name := lowerString nc.nodeName
  if nc.nodeType == 1 then
    some (.mk 1 name "" nc.attrs false (transferChildren name nc.children))
  else if nc.nodeType == 8 || nc.nodeType == 3 || nc.nodeType == 4 || nc.nodeType == 7 then
    some (.mk nc.nodeType name nc.data [] isSpecial (transferChildren name nc.children))
  else
    none
termination_by 2 * nnsize nc
decreasing_by
  · cases nc with
    | mk t n d a cs =>
      simp only [NativeNode.children, nnsize_mk]
      omega
  · cases nc with
    | mk t n d a cs =>
      simp only [NativeNode.children, nnsize_mk]
      omega

/-- Lines 163–185: transcribe the native children of a parent named
`parentName` into `AstNode` form (the `parent.append(child)` calls build this
list in order). -/
def transferChildren (parentName : String) (ncs : List NativeNode) : List AstNode :=
  match ncs with
  | [] => []
  | nc :: rest =>
    match transferChild parentName nc with
    | some child => child :: transferChildren parentName rest
    | none => transferChildren parentName rest
termination_by 2 * nnsizeList ncs + 1
decreasing_by
  all_goals
    simp only [nnsizeList_cons]
    first
    | omega
    | exact nnsize_two_mul_lt _ _ (nnsize_pos _)

end

/-! ### Theorems for C9 and C8 -/

/-- C9: the effective root-block name is computed from the per-call
`forced_root_block` argument when present, else from the settings value;
`true` maps to `"p"`, `false` maps to the empty name — so that the root-block
stage never runs — and any string value is used verbatim. -/
theorem claim_C9_effective_root_block_name :
    (∀ (settings : DomParserSettings) (args : ParserArgs) v,
        args.forced_root_block = some v →
        rootBlockName settings args = getRootBlockName (some v)) ∧
    (∀ (settings : DomParserSettings) (args : ParserArgs),
        args.forced_root_block = none →
        rootBlockName settings args = getRootBlockName settings.forced_root_block) ∧
    getRootBlockName (some (.bool true)) = some "p" ∧
    getRootBlockName (some (.bool false)) = some "" ∧
    (∀ s, getRootBlockName (some (.str s)) = some s) ∧
    (∀ (settings : DomParserSettings) (args : ParserArgs),
        forcedRootBlockArg settings args = some (.bool false) →
        rootBlockStageRuns settings args = false) := by
  refine ⟨?_, ?_, rfl, rfl, fun s => rfl, ?_⟩
  · intro settings args v h
    simp [rootBlockName, forcedRootBlockArg, h]
  · intro settings args h
    simp [rootBlockName, forcedRootBlockArg, h]
  · intro settings args h
    simp [rootBlockStageRuns, rootBlockName, h, getRootBlockName, jsTruthyStr]
    intro hc
    exact absurd hc (by decide)

theorem claim_C9_effective_root_block_name_witness :
    rootBlockName {} { forced_root_block := some (.bool true) } = some "p" ∧
    rootBlockStageRuns { forced_root_block := some (.bool false) } {} = false := by
  constructor
  · exact (claim_C9_effective_root_block_name.1 {} { forced_root_block := some (.bool true) }
      (.bool true) rfl).trans claim_C9_effective_root_block_name.2.2.1
  · exact claim_C9_effective_root_block_name.2.2.2.2.2 { forced_root_block := some (.bool false) } {} rfl

/-- Concrete native tree refuting C8 as stated: a `script` element whose text
content sits below an intermediate (non-special) element. -/
def c8Native : NativeNode :=
  .mk 1 "SCRIPT" "" [] [.mk 1 "B" "" [] [.mk 3 "#text" "x" [] []]]

/-- C8 counterexample: importing `script > b > #text` leaves the text node
with `raw = false`, although it is a descendant text-like node of an imported
element named `script` — the importer marks only the *direct* text-like
children of `script`/`style` as raw. -/
theorem claim_C8_counterexample :
    transferChildren "body" [c8Native] =
      [.mk 1 "script" "" [] false
        [.mk 1 "b" "" [] false
          [.mk 3 "#text" "x" [] false []]]] ∧
    ((transferChildren "body" [c8Native]).headI.children.headI.children.headI).raw
      = false := by
  have h : transferChildren "body" [c8Native] =
      [.mk 1 "script" "" [] false
        [.mk 1 "b" "" [] false
          [.mk 3 "#text" "x" [] false []]]] := by
    simp [transferChildren, transferChild, c8Native, NativeNode.nodeType,
      NativeNode.nodeName, NativeNode.data, NativeNode.attrs, NativeNode.children,
      lowerString]
  refine ⟨h, ?_⟩
  rw [h]
  rfl

/-- C8 amended: during tree import, native nodes whose type is not one of the
five handled kinds (element 1, text 3, comment 8, CDATA 4, PI 7) are silently
dropped, and every *direct* text-like child of an imported element named
`script` or `style` has `raw = true` (deeper descendants are marked only if
their own parent is special). -/
theorem claim_C8_import_drops_unhandled_and_marks_raw :
    (∀ parentName ncs, transferChildren parentName ncs
        = ncs.filterMap (transferChild parentName)) ∧
    (∀ parentName nc, transferChild parentName nc = none ↔
        ¬(nc.nodeType = 1 ∨ nc.nodeType = 3 ∨ nc.nodeType = 8 ∨
          nc.nodeType = 4 ∨ nc.nodeType = 7)) ∧
    (∀ parentName nc a, (parentName = "script" ∨ parentName = "style") →
        transferChild parentName nc = some a →
        (a.type = 3 ∨ a.type = 8 ∨ a.type = 4 ∨ a.type = 7) →
        a.raw = true) := by
  refine ⟨?_, ?_, ?_⟩
  · intro parentName ncs
    induction ncs with
    | nil => rw [transferChildren]; rfl
    | cons nc rest ih =>
      rw [transferChildren, List.filterMap_cons]
      cases transferChild parentName nc <;> simp [ih]
  · intro parentName nc
    rw [transferChild]
    split
    · rename_i h
      simp only [beq_iff_eq] at h
      simp [h]
    · split
      · rename_i h₁ h₂
        simp only [Bool.or_eq_true, beq_iff_eq] at h₂
        simp
        omega
      · rename_i h₁ h₂
        simp only [beq_iff_eq] at h₁
        simp only [Bool.or_eq_true, beq_iff_eq] at h₂
        push_neg at h₂
        simp
        omega
  · intro parentName nc a hspecial hsome htype
    rw [transferChild] at hsome
    split at hsome
    · rename_i h
      simp only [Option.some_inj] at hsome
      subst hsome
      simp [AstNode.type] at htype
    · split at hsome
      · rename_i h₁ h₂
        simp only [Option.some_inj] at hsome
        subst hsome
        simp only [AstNode.raw]
        rcases hspecial with h | h <;> simp [h]
      · exact absurd hsome (by simp)

theorem claim_C8_import_drops_unhandled_and_marks_raw_witness :
    transferChildren "body" [.mk 9 "#document" "" [] []] =
      ([.mk 9 "#document" "" [] []] :
          List NativeNode).filterMap (transferChild "body") ∧
    transferChild "body" (.mk 9 "#document" "" [] []) = none ∧
    AstNode.raw (.mk 3 "#text" "x" [] true []) = true := by
  refine ⟨claim_C8_import_drops_unhandled_and_marks_raw.1 "body" _, ?_, ?_⟩
  · exact (claim_C8_import_drops_unhandled_and_marks_raw.2.1 "body"
      (.mk 9 "#document" "" [] [])).mpr (by simp [NativeNode.nodeType])
  · exact claim_C8_import_drops_unhandled_and_marks_raw.2.2 "script"
      (.mk 3 "#text" "x" [] []) _ (Or.inl rfl)
      (by simp [transferChild, NativeNode.nodeType, NativeNode.nodeName,
        NativeNode.data, NativeNode.attrs, NativeNode.children, lowerString,
        transferChildren])
      (Or.inl rfl)

/-! ## RootBlockWrapper: `addRootBlocks` (lines 488–535) and its guard (line 556) -/

/-- The whitespace class of the source's `/[ \t\r\n]+/` regexes. -/
def isWSChar (c : Char) : Bool := c == ' ' || c == '\t' || c == '\r' || c == '\n'

/-- `text.replace(/^[ \t\r\n]+/, '')` (line 485 / 497). -/
def stripLeadingWS (s : String) : String := ⟨s.data.dropWhile isWSChar⟩

/-- `text.replace(/[ \t\r\n]+$/, '')` (line 486 / 502). -/
def stripTrailingWS (s : String) : String := ⟨(s.data.reverse.dropWhile isWSChar).reverse⟩

def AstNode.setValue (n : AstNode) (v : String) : AstNode :=
  .mk n.type n.name v n.attrs n.raw n.children

/-- JS falsiness of an attribute lookup (`!node.attr('data-mce-type')`):
`undefined` and `''` are falsy. -/
def jsFalsyAttr : Option String → Bool
  | none => true
  | some s => s.isEmpty

/-- Lines 515–516: the accumulation condition of `addRootBlocks` — a text
node, or a non-`p` element that is not block-level and carries no
`data-mce-type` attribute. -/
def shouldBeWrapped (blockEls : List String) (n : AstNode) : Bool :=
  n.type == 3 || (n.type == 1 && n.name != "p" &&
    !(blockEls.contains n.name) && jsFalsyAttr (n.attr "data-mce-type"))

/-- Lines 493–505: strip leading whitespace from the wrapper's first child and
trailing whitespace from its last child, when those children are text nodes. -/
def trimRootBlock (rb : AstNode) : AstNode :=
  let step1 :=
    match rb.children with
    | [] => ([] : List AstNode)
    | c :: rest => if c.type == 3 then c.setValue (stripLeadingWS c.value) :: rest else c :: rest
  let step2 :=
    match step1.reverse with
    | [] => ([] : List AstNode)
    | c :: rest => ((if c.type == 3 then c.setValue (stripTrailingWS c.value) else c) :: rest).reverse
  rb.setChildren step2

/-- Lines 519–520: `new AstNode(rootBlockName, 1)` with
`settings.forced_root_block_attrs` applied. -/
def newRootBlock (rbName : String) (rbAttrs : List (String × String))
    (cs : List AstNode) : AstNode :=
  .mk 1 rbName "" rbAttrs false cs

/-- Lines 512–534: the `while (node)` loop of `addRootBlocks`.  The `Option
AstNode` argument is the mutable `rootBlockNode` variable: accumulated nodes
are appended to the open wrapper; a non-accumulated child (or the end of the
children list) trims and closes it. -/
def addRootBlocksLoop (blockEls : List String) (rbName : String)
    (rbAttrs : List (String × String)) :
    List AstNode → Option AstNode → List AstNode
  | [], none => []
  | [], some rb => [trimRootBlock rb]
  | n :: rest, acc =>
    if shouldBeWrapped blockEls n then
      match acc with
      | none =>
        addRootBlocksLoop blockEls rbName rbAttrs rest (some (newRootBlock rbName rbAttrs [n]))
      | some rb =>
        addRootBlocksLoop blockEls rbName rbAttrs rest (some (rb.setChildren (rb.children ++ [n])))
    else
      (match acc with
        | none => ([] : List AstNode)
        | some rb => [trimRootBlock rb]) ++ n :: addRootBlocksLoop blockEls rbName rbAttrs rest none

/-- Lines 488–535: `addRootBlocks`, including the early return when the
root-block tag is not schema-valid as a child of the root (lines 507–510). -/
def addRootBlocks (schema : Schema) (settings : DomParserSettings) (rbName : String)
    (root : AstNode) : AstNode :=
  if !(schema.isValidChild root.name (lowerString rbName)) then root
  else
    root.setChildren
      (addRootBlocksLoop (extendedBlockElements schema) rbName
        settings.forced_root_block_attrs root.children none)

/-- Lines 556–558 of `parse`: the stage runs only when the effective
root-block name is truthy and the root is named `body` or the call is a
root-content parse. -/
def rootBlockStage (schema : Schema) (settings : DomParserSettings) (args : ParserArgs)
    (root : AstNode) : AstNode :=
  match rootBlockName settings args with
  | some rbn =>
    if !rbn.isEmpty && (root.name == "body" || args.isRootContent) then
      addRootBlocks schema settings rbn root
    else root
  | none => root

/-- Declarative restatement of the accumulation loop (follows the spec's
words): scan left to right; each maximal run of accumulated children becomes
one trimmed wrapper at the run's position; other children pass through. -/
def wrapRunsSpec (p : AstNode → Bool) (wrap : List AstNode → AstNode) :
    List AstNode → List AstNode
  | [] => []
  | n :: rest =>
    if p n then
      wrap (n :: rest.takeWhile p) :: wrapRunsSpec p wrap (rest.dropWhile p)
    else
      n :: wrapRunsSpec p wrap rest
termination_by l => l.length
decreasing_by
  · simp only [List.length_cons]
    exact Nat.lt_succ_of_le (List.dropWhile_sublist _).length_le
  · simp

@[simp] theorem children_setChildren (n : AstNode) (cs : List AstNode) :
    (n.setChildren cs).children = cs := by
  cases n with
  | mk t nm v a r cs0 => rfl

@[simp] theorem setChildren_setChildren (n : AstNode) (cs cs' : List AstNode) :
    (n.setChildren cs).setChildren cs' = n.setChildren cs' := by
  cases n with
  | mk t nm v a r cs0 => rfl

@[simp] theorem setChildren_children (n : AstNode) :
    n.setChildren n.children = n := by
  cases n with
  | mk t nm v a r cs0 => rfl

/-- The loop of `addRootBlocks`, run with the `rootBlockNode` variable in
either state, computes the run-grouping function: open wrappers absorb the
next maximal accumulated run, and the scan continues past it. -/
theorem addRootBlocksLoop_eq_wrapRunsSpec (blockEls : List String) (rbName : String)
    (rbAttrs : List (String × String)) (cs : List AstNode) :
    ∀ acc : Option AstNode,
      addRootBlocksLoop blockEls rbName rbAttrs cs acc =
        match acc with
        | none =>
          wrapRunsSpec (shouldBeWrapped blockEls)
            (fun run => trimRootBlock (newRootBlock rbName rbAttrs run)) cs
        | some rb =>
          trimRootBlock (rb.setChildren (rb.children ++ cs.takeWhile (shouldBeWrapped blockEls)))
            :: wrapRunsSpec (shouldBeWrapped blockEls)
                (fun run => trimRootBlock (newRootBlock rbName rbAttrs run))
                (cs.dropWhile (shouldBeWrapped blockEls)) := by
  induction cs with
  | nil =>
    intro acc
    cases acc with
    | none => simp [addRootBlocksLoop, wrapRunsSpec]
    | some rb => simp [addRootBlocksLoop, wrapRunsSpec]
  | cons n rest ih =>
    intro acc
    cases acc with
    | none =>
      by_cases hp : shouldBeWrapped blockEls n
      · simp only [addRootBlocksLoop, hp, if_true]
        rw [ih (some (newRootBlock rbName rbAttrs [n]))]
        simp [hp, wrapRunsSpec, newRootBlock, AstNode.setChildren, AstNode.type,
          AstNode.name, AstNode.value, AstNode.attrs, AstNode.raw, AstNode.children]
      · simp only [addRootBlocksLoop, hp, if_false, Bool.false_eq_true]
        rw [ih none]
        simp [hp, wrapRunsSpec]
    | some rb =>
      by_cases hp : shouldBeWrapped blockEls n
      · simp only [addRootBlocksLoop, hp, if_true]
        rw [ih (some (rb.setChildren (rb.children ++ [n])))]
        simp [hp, List.takeWhile_cons, List.dropWhile_cons]
      · simp only [addRootBlocksLoop, hp, if_false, Bool.false_eq_true]
        rw [ih none]
        simp [hp, List.takeWhile_cons, List.dropWhile_cons, wrapRunsSpec]

/-- Schema fragment used by the concrete root-block example: `p` is a valid
child of `body`, and `p` is a block element. -/
def rbExampleSchema : Schema :=
  { elements := [("body", {}), ("p", {})]
    childrenMap := [("body", ["p"]), ("p", ["#text"])]
    blockElements := ["p"]
    whiteSpaceElements := []
    nonEmptyElements := [] }

/-- The root-level forest of `"text<p>x</p>text2"` after import. -/
def rbExampleRoot : AstNode :=
  .mk 11 "body" "" [] false
    [.mk 3 "#text" "text" [] false [],
     .mk 1 "p" "" [] false [.mk 3 "#text" "x" [] false []],
     .mk 3 "#text" "text2" [] false []]

/-- C5: root-block wrapping runs only under its three guards, the scan
accumulates exactly the text / non-`p` non-block non-`data-mce-type` children
into per-run wrappers, and `"text<p>x</p>text2"` with `forced_root_block = "p"`
yields three root-level `p` elements. -/
theorem claim_C5_root_block_wrapping :
    (∀ (schema : Schema) (settings : DomParserSettings) (args : ParserArgs) root,
        jsTruthyStr (rootBlockName settings args) = false →
        rootBlockStage schema settings args root = root) ∧
    (∀ (schema : Schema) (settings : DomParserSettings) (args : ParserArgs) root,
        root.name ≠ "body" → args.isRootContent = false →
        rootBlockStage schema settings args root = root) ∧
    (∀ (schema : Schema) (settings : DomParserSettings) (args : ParserArgs) root rbn,
        rootBlockName settings args = some rbn →
        schema.isValidChild root.name (lowerString rbn) = false →
        rootBlockStage schema settings args root = root) ∧
    (∀ blockEls rbName rbAttrs cs,
        addRootBlocksLoop blockEls rbName rbAttrs cs none =
          wrapRunsSpec (shouldBeWrapped blockEls)
            (fun run => trimRootBlock (newRootBlock rbName rbAttrs run)) cs) ∧
    (rootBlockStage rbExampleSchema { forced_root_block := some (.str "p") } {}
        rbExampleRoot).children =
      [.mk 1 "p" "" [] false [.mk 3 "#text" "text" [] false []],
       .mk 1 "p" "" [] false [.mk 3 "#text" "x" [] false []],
       .mk 1 "p" "" [] false [.mk 3 "#text" "text2" [] false []]] := by
  refine ⟨?_, ?_, ?_, ?_, ?_⟩
  · intro schema settings args root h
    unfold rootBlockStage
    cases hr : rootBlockName settings args with
    | none => rfl
    | some rbn =>
      rw [hr] at h
      simp [jsTruthyStr] at h
      simp [h]
  · intro schema settings args root hname hrc
    unfold rootBlockStage
    cases hr : rootBlockName settings args with
    | none => rfl
    | some rbn =>
      simp [hname, hrc]
  · intro schema settings args root rbn hr hvalid
    simp only [rootBlockStage, hr]
    split
    · simp [addRootBlocks, hvalid]
    · rfl
  · intro blockEls rbName rbAttrs cs
    exact addRootBlocksLoop_eq_wrapRunsSpec blockEls rbName rbAttrs cs none
  · rfl

theorem claim_C5_root_block_wrapping_witness :
    rootBlockStage rbExampleSchema {} {} rbExampleRoot = rbExampleRoot ∧
    rootBlockStage rbExampleSchema { forced_root_block := some (.str "p") }
      { context := some "div" } (.mk 11 "div" "" [] false []) =
      .mk 11 "div" "" [] false [] ∧
    addRootBlocksLoop [] "p" [] [] none =
      wrapRunsSpec (shouldBeWrapped []) (fun run => trimRootBlock (newRootBlock "p" [] run)) [] := by
  refine ⟨?_, ?_, ?_⟩
  · exact claim_C5_root_block_wrapping.1 rbExampleSchema {} {} rbExampleRoot rfl
  · exact claim_C5_root_block_wrapping.2.1 rbExampleSchema
      { forced_root_block := some (.str "p") } { context := some "div" }
      (.mk 11 "div" "" [] false []) (by decide) rfl
  · exact claim_C5_root_block_wrapping.2.2.2.1 [] "p" [] []

/-! ## SchemaValidator / Walker (lines 187–219) and `filterNode` (lines 346–378) -/

/-- A named filter with its registered callbacks (callbacks are identified by
opaque numeric ids in the embedding). -/
structure ParserFilter where
  name : String
  callbacks : List Nat
deriving DecidableEq, Repr

/-- The `WalkResult` state (lines 88–93).  `invalidChildren` entries carry the
node together with whether its parent was the synthetic root when recorded
(`child.parent === rootNode`, the test used at partition time; the walker
mutates no ancestor of a recorded node afterwards, so the flag recorded at
visit time equals the parent identity checked on line 547). -/
structure WalkState where
  invalidChildren : List (AstNode × Bool) := []
  matchedNodes : List (String × List AstNode) := []
  matchedAttributes : List (String × List AstNode) := []

/-- Push `n` onto the matched-node list registered under `name`, creating the
entry at the end when absent (lines 349–357 / 364–373; JS object/record keys
iterate in insertion order, which the association list preserves). -/
def recordMatched (m : List (String × List AstNode)) (name : String) (n : AstNode) :
    List (String × List AstNode) :=
  if m.any (·.1 == name) then
    m.map (fun p => if p.1 == name then (p.1, p.2 ++ [n]) else p)
  else m ++ [(name, [n])]

/-- Lines 346–378: record the node under a matching node-filter name, then —
for elements, the only nodes owning an `attributes` object — iterate the
attribute-filter list from the most recently registered entry backwards
(`let i = attributeFilters.length; while (i--) ...`), recording the node
under every attribute-filter name it carries. -/
def filterNode (node : AstNode) (nodeFilters : List (String × List Nat))
    (attributeFilters : List ParserFilter) (st : WalkState) : WalkState :=
  let st1 :=
    if nodeFilters.any (·.1 == node.name) then
      { st with matchedNodes := recordMatched st.matchedNodes node.name node }
    else st
  if node.type == 1 then
    (attributeFilters.reverse).foldl
      (fun s f =>
        if node.hasAttr f.name then
          { s with matchedAttributes := recordMatched s.matchedAttributes f.name node }
        else s) st1
  else st1

/-- Lines 211–215: `schema.children[parent.name] && schema.children[node.name]
&& !schema.children[parent.name][node.name]`. -/
def isInvalidChild (schema : Schema) (parentName nodeName : String) : Bool :=
  (schema.children parentName).isSome && (schema.children nodeName).isSome &&
    !(((schema.children parentName).getD []).contains nodeName)

/-- Line 194: `validate ? schema.getElementRule(node.name) : {} as SchemaElement`. -/
def visitElementRule (settings : DomParserSettings) (schema : Schema) (name : String) :
    Option SchemaElement :=
  if settings.validate then schema.getElementRule name else some {}

/-- Lines 190–216, the `while` walk, recast as document-order recursion over a
sibling forest.  `pname`/`proot` are the current parent's (already possibly
renamed) name and whether that parent is the synthetic root.  The source's
`node.unwrap(); node = previous; continue` re-enters the walk at the spliced
children's position, which is exactly the recursive call on
`n.children ++ rest`.  Non-element nodes take the `some {}` arm (no rename:
the default rule has no `outputName`). -/
def walkList (settings : DomParserSettings) (schema : Schema)
    (nodeFilters : List (String × List Nat)) (attributeFilters : List ParserFilter) :
    String → Bool → List AstNode → WalkState → List AstNode × WalkState
  | _, _, [], st => ([], st)
  | pname, proot, n :: rest, st =>
    match (if n.type == 1 then visitElementRule settings schema n.name else some {}) with
    | none =>
      walkList settings schema nodeFilters attributeFilters pname proot (n.children ++ rest) st
    | some rule =>
      let newName := rule.outputName.getD n.name
      let visited : AstNode := .mk n.type newName n.value n.attrs n.raw n.children
      let st1 := filterNode visited nodeFilters attributeFilters st
      let st2 :=
        if isInvalidChild schema pname newName then
          { st1 with invalidChildren := st1.invalidChildren ++ [(visited, proot)] }
        else st1
      let res1 := walkList settings schema nodeFilters attributeFilters newName false n.children st2
      let res2 := walkList settings schema nodeFilters attributeFilters pname proot rest res1.2
      (.mk n.type newName n.value n.attrs n.raw res1.1 :: res2.1, res2.2)
termination_by _ _ l _ => nsizeList l
decreasing_by
  · exact nsizeList_children_lt n rest
  · cases n with
    | mk t nm v a r cs =>
      simp only [AstNode.children, nsizeList_cons, nsize_mk]
      omega
  · cases n with
    | mk t nm v a r cs =>
      simp only [nsizeList_cons, nsize_mk]
      omega

/-- Lines 187–219: `walker(rootNode, ...)`.  The walk starts at
`root.walk()`, i.e. at the root's first child; the root itself is never
visited, so its fields survive unchanged and it is recorded nowhere. -/
def walker (settings : DomParserSettings) (schema : Schema)
    (nodeFilters : List (String × List Nat)) (attributeFilters : List ParserFilter)
    (root : AstNode) : AstNode × WalkState :=
  let res := walkList settings schema nodeFilters attributeFilters root.name true
    root.children {}
  (.mk root.type root.name root.value root.attrs root.raw res.1, res.2)

/-- Schema for the unknown-tag law: rules exist for `body` and `p` but not for
`foo`. -/
def fooSchema : Schema :=
  { elements := [("body", {}), ("p", {})]
    childrenMap := [("body", ["p"])]
    blockElements := ["p"]
    whiteSpaceElements := []
    nonEmptyElements := [] }

def fooRoot : AstNode :=
  .mk 11 "body" "" [] false
    [.mk 1 "foo" "" [] false [.mk 3 "#text" "text" [] false []]]

/-- C2: with validation enabled, an element whose name has no schema rule is
unwrapped in place — the walk continues with its children spliced at its
former position, so they are visited under the same parent — and
`<foo>text</foo>` yields `text` as a direct child of `foo`'s former parent. -/
theorem claim_C2_unknown_element_unwrapped :
    (∀ (settings : DomParserSettings) (schema : Schema) nf af pname proot
        name v attrs r cs rest st,
        settings.validate = true →
        schema.getElementRule name = none →
        walkList settings schema nf af pname proot (.mk 1 name v attrs r cs :: rest) st =
          walkList settings schema nf af pname proot (cs ++ rest) st) ∧
    (walker {} fooSchema [] [] fooRoot).1 =
      .mk 11 "body" "" [] false [.mk 3 "#text" "text" [] false []] := by
  constructor
  · intro settings schema nf af pname proot name v attrs r cs rest st hval hrule
    rw [walkList]
    simp [visitElementRule, hval, hrule, AstNode.type, AstNode.name, AstNode.children]
  · simp [walker, fooRoot, walkList, visitElementRule, fooSchema, Schema.getElementRule,
      filterNode, isInvalidChild, Schema.children, recordMatched, AstNode.type,
      AstNode.name, AstNode.value, AstNode.attrs, AstNode.raw, AstNode.children,
      AstNode.hasAttr]

theorem claim_C2_unknown_element_unwrapped_witness :
    walkList {} fooSchema [] [] "body" true
        [.mk 1 "foo" "" [] false [.mk 3 "#text" "text" [] false []]] {} =
      walkList {} fooSchema [] [] "body" true
        ([.mk 3 "#text" "text" [] false []] ++ []) {} := by
  exact claim_C2_unknown_element_unwrapped.1 {} fooSchema [] [] "body" true
    "foo" "" [] false [.mk 3 "#text" "text" [] false []] [] {} rfl rfl

/-! ### C10: the synthetic root is never visited by the walk

Every node recorded by the walk is a subtree of the walked forest (renames
preserve the node-count measure), so its `nsize` is bounded by the root's
children; the root itself is strictly larger, hence can never be recorded. -/

def nodesBound (N : Nat) (m : List (String × List AstNode)) : Prop :=
  ∀ p ∈ m, ∀ x ∈ p.2, nsize x ≤ N

def stBound (N : Nat) (st : WalkState) : Prop :=
  (∀ e ∈ st.invalidChildren, nsize e.1 ≤ N) ∧
  nodesBound N st.matchedNodes ∧ nodesBound N st.matchedAttributes

theorem recordMatched_bound {N : Nat} {m : List (String × List AstNode)}
    {name : String} {n : AstNode} (hm : nodesBound N m) (hn : nsize n ≤ N) :
    nodesBound N (recordMatched m name n) := by
  unfold recordMatched
  split
  · intro p hp x hx
    rw [List.mem_map] at hp
    obtain ⟨q, hq, rfl⟩ := hp
    by_cases h : q.1 == name
    · simp only [h, if_true] at hx
      rcases List.mem_append.mp hx with hx | hx
      · exact hm q hq x hx
      · rw [List.mem_singleton] at hx
        exact hx ▸ hn
    · simp only [h, if_false] at hx
      exact hm q hq x hx
  · intro p hp x hx
    rcases List.mem_append.mp hp with hp | hp
    · exact hm p hp x hx
    · rw [List.mem_singleton] at hp
      subst hp
      rw [List.mem_singleton] at hx
      exact hx ▸ hn

theorem foldl_attr_bound {N : Nat} (node : AstNode) (af : List ParserFilter)
    (hn : nsize node ≤ N) :
    ∀ st : WalkState, stBound N st →
      stBound N (af.foldl
        (fun s f =>
          if node.hasAttr f.name then
            { s with matchedAttributes := recordMatched s.matchedAttributes f.name node }
          else s) st) := by
  induction af with
  | nil => intro st h; exact h
  | cons f fs ih =>
    intro st h
    simp only [List.foldl_cons]
    apply ih
    split
    · exact ⟨h.1, h.2.1, recordMatched_bound h.2.2 hn⟩
    · exact h

theorem filterNode_bound {N : Nat} {node : AstNode}
    {nf : List (String × List Nat)} {af : List ParserFilter} {st : WalkState}
    (h : stBound N st) (hn : nsize node ≤ N) :
    stBound N (filterNode node nf af st) := by
  have h1 : stBound N (if nf.any (·.1 == node.name) then
      { st with matchedNodes := recordMatched st.matchedNodes node.name node }
    else st) := by
    split
    · exact ⟨h.1, recordMatched_bound h.2.1 hn, h.2.2⟩
    · exact h
  simp only [filterNode]
  split
  · exact foldl_attr_bound node af.reverse hn _ h1
  · exact h1

theorem walkList_bound (settings : DomParserSettings) (schema : Schema)
    (nf : List (String × List Nat)) (af : List ParserFilter) (N : Nat) :
    ∀ (k : Nat) (pname : String) (proot : Bool) (l : List AstNode) (st : WalkState),
      nsizeList l ≤ k → nsizeList l ≤ N → stBound N st →
      stBound N (walkList settings schema nf af pname proot l st).2 := by
  intro k
  induction k with
  | zero =>
    intro pname proot l st hk _ hst
    cases l with
    | nil =>
      rw [walkList]
      exact hst
    | cons n rest =>
      exfalso
      have := nsize_pos n
      simp only [nsizeList_cons] at hk
      omega
  | succ k ih =>
    intro pname proot l st hk hN hst
    cases l with
    | nil =>
      rw [walkList]
      exact hst
    | cons n rest =>
      rw [walkList]
      have hchildren_lt := nsizeList_children_lt n rest
      have hrest_lt : nsizeList rest < nsizeList (n :: rest) := by
        have := nsize_pos n
        simp only [nsizeList_cons]
        omega
      have hkids_lt : nsizeList n.children < nsizeList (n :: rest) := by
        cases n with
        | mk t nm v a r cs =>
          simp only [AstNode.children, nsizeList_cons, nsize_mk]
          omega
      cases hmatch : (if n.type == 1 then visitElementRule settings schema n.name
          else some {}) with
      | none =>
        simp only [hmatch]
        exact ih pname proot (n.children ++ rest) st (by omega) (by omega) hst
      | some rule =>
        simp only [hmatch]
        have hsize_n : nsize n ≤ N := by
          simp only [nsizeList_cons] at hN
          omega
        have hvisited :
            nsize (AstNode.mk n.type (rule.outputName.getD n.name) n.value n.attrs n.raw
              n.children) ≤ N := by
          cases n with
          | mk t nm v a r cs =>
            simpa [AstNode.type, AstNode.name, AstNode.value, AstNode.attrs, AstNode.raw,
              AstNode.children] using hsize_n
        apply ih pname proot rest _ (by omega) (by omega)
        apply ih (rule.outputName.getD n.name) false n.children _ (by omega) (by omega)
        split
        · refine ⟨?_, (filterNode_bound hst hvisited).2.1,
            (filterNode_bound hst hvisited).2.2⟩
          intro e he
          rcases List.mem_append.mp he with he | he
          · exact (filterNode_bound hst hvisited).1 e he
          · rw [List.mem_singleton] at he
            subst he
            exact hvisited
        · exact filterNode_bound hst hvisited

theorem nsize_root_gt_children (root : AstNode) :
    nsizeList root.children < nsize root := by
  cases root with
  | mk t nm v a r cs =>
    simp only [AstNode.children, nsize_mk]
    omega

/-- C10: the validation walk never visits the synthetic root: the walked tree
keeps the root's type, name, value, attributes and raw flag (it is never
unwrapped or renamed), and the root occurs in none of `invalidChildren`,
`matchedNodes` or `matchedAttributes`. -/
theorem claim_C10_root_never_visited (settings : DomParserSettings) (schema : Schema)
    (nf : List (String × List Nat)) (af : List ParserFilter) (root : AstNode) :
    ((walker settings schema nf af root).1.type = root.type ∧
     (walker settings schema nf af root).1.name = root.name ∧
     (walker settings schema nf af root).1.value = root.value ∧
     (walker settings schema nf af root).1.attrs = root.attrs ∧
     (walker settings schema nf af root).1.raw = root.raw) ∧
    (∀ e ∈ (walker settings schema nf af root).2.invalidChildren, e.1 ≠ root) ∧
    (∀ p ∈ (walker settings schema nf af root).2.matchedNodes, root ∉ p.2) ∧
    (∀ p ∈ (walker settings schema nf af root).2.matchedAttributes, root ∉ p.2) := by
  have hbound : stBound (nsizeList root.children)
      (walker settings schema nf af root).2 := by
    unfold walker
    exact walkList_bound settings schema nf af (nsizeList root.children)
      (nsizeList root.children) root.name true root.children {} le_rfl le_rfl
      ⟨by simp, by intro p hp; simp at hp, by intro p hp; simp at hp⟩
  have hroot := nsize_root_gt_children root
  refine ⟨?_, ?_, ?_, ?_⟩
  · unfold walker
    cases root with
    | mk t nm v a r cs =>
      exact ⟨rfl, rfl, rfl, rfl, rfl⟩
  · intro e he heq
    have := hbound.1 e he
    rw [heq] at this
    omega
  · intro p hp hmem
    have := hbound.2.1 p hp root hmem
    omega
  · intro p hp hmem
    have := hbound.2.2 p hp root hmem
    omega

def w10Root : AstNode :=
  .mk 11 "body" "" [] false [.mk 3 "#text" "t" [] false []]

theorem claim_C10_root_never_visited_witness :
    (walker {} fooSchema [("#text", [0])] [] w10Root).1.name = w10Root.name ∧
    w10Root ∉ [AstNode.mk 3 "#text" "t" [] false []] := by
  constructor
  · exact (claim_C10_root_never_visited {} fooSchema [("#text", [0])] [] w10Root).1.2.1
  · exact (claim_C10_root_never_visited {} fooSchema [("#text", [0])] [] w10Root).2.2.1
      ("#text", [AstNode.mk 3 "#text" "t" [] false []])
      (by simp [walker, w10Root, walkList, visitElementRule, fooSchema,
        Schema.getElementRule, filterNode, isInvalidChild, Schema.children,
        recordMatched, AstNode.type, AstNode.name, AstNode.value, AstNode.attrs,
        AstNode.raw, AstNode.children, AstNode.hasAttr])

/-! ## Invalid-children handling and filter dispatch (lines 544–605)

`cleanInvalidNodes` is repository code outside `src/`; per spec §4.5 it is the
external repair collaborator, so the embedding records the exact node list
handed to it (`repairedInput`) instead of performing the repair.  The
`hasParent` parameter models the `!nodes[fi].parent` test of lines 570–576 /
592–598: whether a matched node is still attached at dispatch time. -/

/-- One callback invocation performed by the dispatch loops: the filter name,
the callback's identity, and the node list passed to it. -/
structure DispatchEvent where
  filterName : String
  callback : Nat
  nodes : List AstNode

/-- Lines 562–582: iterate the names of `state.matchedNodes` (JS insertion
order), drop matched nodes that have lost their parent, then invoke every
callback registered under the name, in registration order, with the
survivors. -/
def dispatchNodeFilters (nodeFilters : List (String × List Nat))
    (matchedNodes : List (String × List AstNode)) (hasParent : AstNode → Bool) :
    List DispatchEvent :=
  matchedNodes.flatMap (fun p =>
    (((nodeFilters.find? (·.1 == p.1)).map (·.2)).getD []).map
      (fun cb => ⟨p.1, cb, p.2.filter hasParent⟩))

/-- Lines 584–604: iterate `attributeFilters` in registration order; for each
name with matches, drop detached nodes, then invoke its callbacks in
registration order with the survivors. -/
def dispatchAttributeFilters (attributeFilters : List ParserFilter)
    (matchedAttributes : List (String × List AstNode)) (hasParent : AstNode → Bool) :
    List DispatchEvent :=
  attributeFilters.flatMap (fun f =>
    match matchedAttributes.find? (·.1 == f.name) with
    | some p => f.callbacks.map (fun cb => ⟨f.name, cb, p.2.filter hasParent⟩)
    | none => [])

structure ParseFixResult where
  invalid : Bool
  /-- The nodes handed to the `cleanInvalidNodes` collaborator. -/
  repairedInput : List AstNode
  nodeFilterEvents : List DispatchEvent
  attributeFilterEvents : List DispatchEvent

/-- Lines 544–605 of `parse`: fix or report invalid children, then run the
filters only when the contents is valid.  In a contextual parse the invalid
children are partitioned by `child.parent === rootNode` (the recorded
`parentIsRoot` flag); only the others go to repair, and
`args.invalid = topLevelChildren.length > 0`. -/
def fixAndDispatch (settings : DomParserSettings) (args : ParserArgs)
    (nodeFilters : List (String × List Nat)) (attributeFilters : List ParserFilter)
    (st : WalkState) (hasParent : AstNode → Bool) : ParseFixResult :=
  let fixed :=
    if settings.validate && !st.invalidChildren.isEmpty then
      if jsTruthyStr args.context then
        let part := st.invalidChildren.partition (·.2)
        (decide (0 < part.1.length), part.2.map (·.1))
      else
        (args.invalid, st.invalidChildren.map (·.1))
    else (args.invalid, ([] : List AstNode))
  if fixed.1 then
    ⟨true, fixed.2, [], []⟩
  else
    ⟨false, fixed.2, dispatchNodeFilters nodeFilters st.matchedNodes hasParent,
      dispatchAttributeFilters attributeFilters st.matchedAttributes hasParent⟩

/-- C1: in a contextual parse with validation enabled, if any recorded invalid
child is a direct child of the synthetic root then the `invalid` flag is set,
exactly the invalid children that are not direct children of the root are
handed to the repair collaborator, and no node- or attribute-filter callback
runs. -/
theorem claim_C1_contextual_invalid (settings : DomParserSettings) (args : ParserArgs)
    (nf : List (String × List Nat)) (af : List ParserFilter)
    (st : WalkState) (hasParent : AstNode → Bool)
    (hval : settings.validate = true)
    (hctx : jsTruthyStr args.context = true)
    (hinv : ∃ e ∈ st.invalidChildren, e.2 = true) :
    (fixAndDispatch settings args nf af st hasParent).invalid = true ∧
    (fixAndDispatch settings args nf af st hasParent).repairedInput =
      (st.invalidChildren.filter (fun e => !e.2)).map (·.1) ∧
    (fixAndDispatch settings args nf af st hasParent).nodeFilterEvents = [] ∧
    (fixAndDispatch settings args nf af st hasParent).attributeFilterEvents = [] := by
  obtain ⟨e, he, he2⟩ := hinv
  have hne : st.invalidChildren.isEmpty = false := by
    cases h : st.invalidChildren with
    | nil =>
      rw [h] at he
      simp at he
    | cons a l => rfl
  have hpos : 0 < (st.invalidChildren.filter (fun x => x.2)).length :=
    List.length_pos_of_mem (List.mem_filter.mpr ⟨he, by simp [he2]⟩)
  simp only [fixAndDispatch, hval, hne, hctx, Bool.not_false, Bool.and_self, if_true,
    List.partition_eq_filter_filter, decide_eq_true_eq]
  rw [if_pos hpos]
  refine ⟨rfl, ?_, rfl, rfl⟩
  rfl

def c1Tr : AstNode := .mk 1 "tr" "" [] false []

def c1Td : AstNode := .mk 1 "td" "" [] false []

def c1State : WalkState :=
  { invalidChildren := [(c1Tr, true), (c1Td, false)]
    matchedNodes := [("tr", [c1Tr])]
    matchedAttributes := [] }

theorem claim_C1_contextual_invalid_witness :
    (fixAndDispatch {} { context := some "p" } [("tr", [0])] [] c1State
      (fun _ => true)).invalid = true ∧
    (fixAndDispatch {} { context := some "p" } [("tr", [0])] [] c1State
      (fun _ => true)).repairedInput = [c1Td] ∧
    (fixAndDispatch {} { context := some "p" } [("tr", [0])] [] c1State
      (fun _ => true)).nodeFilterEvents = [] ∧
    (fixAndDispatch {} { context := some "p" } [("tr", [0])] [] c1State
      (fun _ => true)).attributeFilterEvents = [] := by
  have h := claim_C1_contextual_invalid {} { context := some "p" } [("tr", [0])] []
    c1State (fun _ => true) rfl rfl ⟨(c1Tr, true), by simp [c1State], rfl⟩
  refine ⟨h.1, ?_, h.2.2.1, h.2.2.2⟩
  rw [h.2.1]
  simp [c1State]

/-! ### C6: attribute filters — reverse-order matching, registration-order dispatch -/

theorem foldl_attr_keys (node : AstNode) :
    ∀ (l : List ParserFilter) (st : WalkState),
      (l.map (·.name)).Nodup →
      (∀ f ∈ l, ∀ p ∈ st.matchedAttributes, p.1 ≠ f.name) →
      ((l.foldl
        (fun s f =>
          if node.hasAttr f.name then
            { s with matchedAttributes := recordMatched s.matchedAttributes f.name node }
          else s) st).matchedAttributes).map (·.1)
        = st.matchedAttributes.map (·.1)
          ++ (l.filter (fun f => node.hasAttr f.name)).map (·.name) := by
  intro l
  induction l with
  | nil =>
    intro st _ _
    simp
  | cons f fs ih =>
    intro st hnd hdis
    simp only [List.foldl_cons]
    by_cases hf : node.hasAttr f.name
    · rw [if_pos hf]
      have hnotin : st.matchedAttributes.any (·.1 == f.name) = false := by
        rw [List.any_eq_false]
        intro p hp
        simp only [beq_iff_eq]
        exact hdis f (List.mem_cons_self f fs) p hp
      have hrm : recordMatched st.matchedAttributes f.name node
          = st.matchedAttributes ++ [(f.name, [node])] := by
        unfold recordMatched
        rw [hnotin]
        rfl
      rw [ih]
      · simp [hrm, hf, List.filter_cons]
      · exact (List.nodup_cons.mp hnd).2
      · intro g hg p hp
        simp only [hrm] at hp
        rcases List.mem_append.mp hp with hp | hp
        · exact hdis g (List.mem_cons_of_mem f hg) p hp
        · rw [List.mem_singleton] at hp
          subst hp
          intro heq
          refine (List.nodup_cons.mp hnd).1 ?_
          simp only [List.mem_map]
          exact ⟨g, hg, heq.symm⟩
    · rw [if_neg hf]
      rw [ih st (List.nodup_cons.mp hnd).2 (fun g hg => hdis g (List.mem_cons_of_mem f hg))]
      simp [List.filter_cons, hf]

theorem dispatchAttributeFilters_pairs (matched : List (String × List AstNode))
    (hasParent : AstNode → Bool) :
    ∀ af : List ParserFilter,
      (dispatchAttributeFilters af matched hasParent).map
          (fun e => (e.filterName, e.callback))
        = af.flatMap (fun f =>
            if (matched.find? (·.1 == f.name)).isSome then
              f.callbacks.map (fun cb => (f.name, cb))
            else []) := by
  intro af
  induction af with
  | nil => rfl
  | cons f fs ih =>
    simp only [dispatchAttributeFilters, List.flatMap_cons, List.map_append] at *
    cases hfind : matched.find? (·.1 == f.name) with
    | none => simp [hfind, ih]
    | some p => simp [hfind, ih, List.map_map, Function.comp]

theorem dispatchAttributeFilters_nodes (matched : List (String × List AstNode))
    (hasParent : AstNode → Bool) :
    ∀ af : List ParserFilter,
      ∀ ev ∈ dispatchAttributeFilters af matched hasParent,
        ∃ p ∈ matched, p.1 = ev.filterName ∧ ev.nodes = p.2.filter hasParent := by
  intro af
  induction af with
  | nil =>
    intro ev hev
    simp [dispatchAttributeFilters] at hev
  | cons f fs ih =>
    intro ev hev
    simp only [dispatchAttributeFilters, List.flatMap_cons, List.mem_append] at hev
    rcases hev with hev | hev
    · cases hfind : matched.find? (·.1 == f.name) with
      | none =>
        rw [hfind] at hev
        simp at hev
      | some p =>
        rw [hfind] at hev
        rw [List.mem_map] at hev
        obtain ⟨cb, _, rfl⟩ := hev
        refine ⟨p, List.mem_of_find?_eq_some hfind, ?_, rfl⟩
        have := List.find?_some hfind
        simpa [beq_iff_eq] using this
    · exact ih ev hev

/-- C6: during the walk a node is matched against attribute-filter names
iterating the list most-recently-registered-first (the recorded entry order is
the reverse of registration order), while dispatch walks the attribute-filter
list in registration order, invoking each filter's callbacks in their own
registration order; detached nodes are dropped first and the callbacks receive
exactly the surviving nodes. -/
theorem claim_C6_attribute_filter_orders :
    (∀ (node : AstNode) (nf : List (String × List Nat)) (af : List ParserFilter)
        inv mn,
        node.type = 1 → (af.map (·.name)).Nodup →
        (filterNode node nf af ⟨inv, mn, []⟩).matchedAttributes.map (·.1)
          = ((af.filter (fun f => node.hasAttr f.name)).map (·.name)).reverse) ∧
    (∀ (af : List ParserFilter) matched hasParent,
        (dispatchAttributeFilters af matched hasParent).map
            (fun e => (e.filterName, e.callback))
          = af.flatMap (fun f =>
              if (matched.find? (·.1 == f.name)).isSome then
                f.callbacks.map (fun cb => (f.name, cb))
              else [])) ∧
    (∀ (af : List ParserFilter) matched hasParent,
        ∀ ev ∈ dispatchAttributeFilters af matched hasParent,
          ∃ p ∈ matched, p.1 = ev.filterName ∧ ev.nodes = p.2.filter hasParent) ∧
    (∀ (af : List ParserFilter) matched hasParent,
        ∀ ev ∈ dispatchAttributeFilters af matched hasParent,
          ∀ x ∈ ev.nodes, hasParent x = true) := by
  refine ⟨?_, ?_, ?_, ?_⟩
  · intro node nf af inv mn htype hnd
    have hstep : filterNode node nf af ⟨inv, mn, []⟩
        = (af.reverse).foldl
            (fun (s : WalkState) (f : ParserFilter) =>
              if node.hasAttr f.name then
                { s with matchedAttributes := recordMatched s.matchedAttributes f.name node }
              else s)
            (if nf.any (·.1 == node.name) then
              (⟨inv, recordMatched mn node.name node, []⟩ : WalkState)
            else ⟨inv, mn, []⟩) := by
      simp only [filterNode, htype, beq_self_eq_true, if_true]
    rw [hstep, foldl_attr_keys]
    · split <;> simp [List.filter_reverse, List.map_reverse]
    · rw [List.map_reverse]
      exact List.nodup_reverse.mpr hnd
    · intro f _ p hp
      split at hp <;> simp at hp
  · intro af matched hasParent
    exact dispatchAttributeFilters_pairs matched hasParent af
  · intro af matched hasParent
    exact dispatchAttributeFilters_nodes matched hasParent af
  · intro af matched hasParent ev hev x hx
    obtain ⟨p, _, _, hnodes⟩ := dispatchAttributeFilters_nodes matched hasParent af ev hev
    rw [hnodes] at hx
    exact List.of_mem_filter hx

def c6Node : AstNode := .mk 1 "a" "" [("href", "x"), ("src", "y")] false []

theorem claim_C6_attribute_filter_orders_witness :
    (filterNode c6Node [] [⟨"href", [0]⟩, ⟨"src", [1]⟩]
        ⟨[], [], []⟩).matchedAttributes.map (·.1) = ["src", "href"] ∧
    (dispatchAttributeFilters [⟨"href", [0]⟩, ⟨"src", [1]⟩] [("src", [c6Node])]
        (fun _ => true)).map (fun e => (e.filterName, e.callback)) = [("src", 1)] := by
  constructor
  · have h := claim_C6_attribute_filter_orders.1 c6Node []
      [⟨"href", [0]⟩, ⟨"src", [1]⟩] [] [] rfl (by simp)
    rw [h]
    rfl
  · have h := claim_C6_attribute_filter_orders.2.1 [⟨"href", [0]⟩, ⟨"src", [1]⟩]
      [("src", [c6Node])] (fun _ => true)
    rw [h]
    rfl

/-! ## Normalizer pass 1: `preprocessText` (lines 255–270) -/

/-- `text.replace(/[ \t\r\n]+/g, ' ')` (line 258), written as a structural
scan: `inRun` records whether the previously consumed character belonged to a
whitespace run (each maximal run emits exactly one space). -/
def collapseWSAux : Bool → List Char → List Char
  | _, [] => []
  | inRun, c :: cs =>
    if isWSChar c then
      if inRun then collapseWSAux true cs else ' ' :: collapseWSAux true cs
    else c :: collapseWSAux false cs

def collapseWhitespace (s : String) : String := ⟨collapseWSAux false s.data⟩

/-- Modelled from the spec: `isLineBreakNode(node, blockElements)` of
`ParserUtils` (not under `src/`) — a present previous sibling that is a
block-level or `br` element. -/
def isLineBreakNode (blockEls : List String) : Option AstNode → Bool
  | none => false
  | some n => blockEls.contains n.name || n.name == "br"

/-- Lines 233–241: climb from the node itself through its ancestors looking
for a whitespace-preserving element name. -/
def hasWhitespaceParent (wsEls : List String) (names : List String) : Bool :=
  names.any (fun nm => wsEls.contains nm)

/-- The inputs `preprocessText` reads from a text node and its surroundings:
its value, the name chain from the node itself up to the root, its previous
sibling, and its parent's name plus whether the parent is the synthetic root. -/
structure TextNodeContext where
  value : String
  selfAndAncestorNames : List String
  prev : Option AstNode
  parentName : String
  parentIsRoot : Bool

/-- Lines 243–252 with `start = true`: no previous sibling, block-level
parent, and the parent is not the synthetic root unless this is a
root-content parse. -/
def isAtEdgeOfBlockStart (blockEls : List String) (isRootContent : Bool)
    (ctx : TextNodeContext) : Bool :=
  ctx.prev.isNone &&
    (blockEls.contains ctx.parentName && (!ctx.parentIsRoot || isRootContent))

/-- Lines 255–270: pass-1 text preprocessing.  `none` models `node.remove()`;
`some t` models storing the collapsed value.  `blockEls` is the extended
block-element map of line 228. -/
def preprocessText (wsEls blockEls : List String) (isRootContent : Bool)
    (ctx : TextNodeContext) : Option String :=
  if hasWhitespaceParent wsEls ctx.selfAndAncestorNames then some ctx.value
  else
    let text0 := collapseWhitespace ctx.value
    let text1 :=
      if isLineBreakNode blockEls ctx.prev ||
         isAtEdgeOfBlockStart blockEls isRootContent ctx then
        stripLeadingWS text0
      else text0
    if text1.length == 0 then none else some text1

theorem collapseWSAux_run (run : List Char) (rest : List Char)
    (hws : ∀ c ∈ run, isWSChar c = true) :
    collapseWSAux true (run ++ rest) = collapseWSAux true rest ∧
    (run ≠ [] → collapseWSAux false (run ++ rest) = ' ' :: collapseWSAux true rest) := by
  induction run with
  | nil => exact ⟨rfl, fun h => absurd rfl h⟩
  | cons c cs ih =>
    have hc : isWSChar c = true := hws c (List.mem_cons_self c cs)
    have ih' := ih (fun d hd => hws d (List.mem_cons_of_mem c hd))
    constructor
    · rw [List.cons_append, collapseWSAux]
      simp only [hc, if_true]
      exact ih'.1
    · intro _
      rw [List.cons_append, collapseWSAux]
      simp only [hc, if_true, Bool.false_eq_true, if_false]
      rw [ih'.1]

theorem collapseWSAux_head_not_ws :
    ∀ (l : List Char) (c : Char), (collapseWSAux true l).head? = some c →
      isWSChar c = false := by
  intro l
  induction l with
  | nil =>
    intro c h
    simp [collapseWSAux] at h
  | cons d ds ih =>
    intro c h
    rw [collapseWSAux] at h
    by_cases hd : isWSChar d
    · simp only [hd, if_true] at h
      exact ih c h
    · simp only [hd, if_false, Bool.false_eq_true, List.head?_cons, Option.some_inj] at h
      subst h
      simp [hd]

theorem collapseWSAux_no_run (b : Bool) (l : List Char) :
    List.Chain' (fun a c => ¬(isWSChar a = true ∧ isWSChar c = true))
      (collapseWSAux b l) ∧
    (∀ c ∈ collapseWSAux b l, c = ' ' ∨ isWSChar c = false) := by
  induction l generalizing b with
  | nil => simp [collapseWSAux]
  | cons d ds ih =>
    rw [collapseWSAux]
    by_cases hd : isWSChar d
    · simp only [hd, if_true]
      cases b with
      | true => exact ih true
      | false =>
        simp only [Bool.false_eq_true, if_false]
        constructor
        · rw [List.chain'_cons']
          refine ⟨?_, (ih true).1⟩
          intro e he
          intro hcontra
          rw [Option.mem_def] at he
          have := collapseWSAux_head_not_ws ds e he
          rw [this] at hcontra
          exact absurd hcontra.2 (by simp)
        · intro c hc
          rcases List.mem_cons.mp hc with rfl | hc
          · exact Or.inl rfl
          · exact (ih true).2 c hc
    · rw [Bool.not_eq_true] at hd
      simp only [hd, Bool.false_eq_true, if_false]
      constructor
      · rw [List.chain'_cons']
        refine ⟨?_, (ih false).1⟩
        intro e _ hcontra
        rw [hd] at hcontra
        exact absurd hcontra.1 (by simp)
      · intro c hc
        rcases List.mem_cons.mp hc with rfl | hc
        · exact Or.inr hd
        · exact (ih false).2 c hc

/-- C4: with no whitespace-preserving ancestor, pass 1 collapses every
whitespace run to one space (run law plus: the result holds no tab/CR/LF and
no two adjacent whitespace characters), strips leading whitespace exactly when
the previous sibling is line-break-equivalent or the node heads a block-level
parent that is not the synthetic root unless this is a root-content parse,
detaches the node exactly when the result is empty, and otherwise stores the
collapsed value; a whitespace-preserving ancestor leaves the value untouched. -/
theorem claim_C4_preprocess_text :
    (∀ wsEls blockEls irc ctx,
        hasWhitespaceParent wsEls ctx.selfAndAncestorNames = true →
        preprocessText wsEls blockEls irc ctx = some ctx.value) ∧
    (∀ wsEls blockEls irc ctx,
        hasWhitespaceParent wsEls ctx.selfAndAncestorNames = false →
        preprocessText wsEls blockEls irc ctx =
          (let stripped :=
            if isLineBreakNode blockEls ctx.prev ||
               (ctx.prev.isNone && blockEls.contains ctx.parentName &&
                 (!ctx.parentIsRoot || irc)) then
              stripLeadingWS (collapseWhitespace ctx.value)
            else collapseWhitespace ctx.value
           if stripped.length == 0 then none else some stripped)) ∧
    (∀ run rest, (∀ c ∈ run, isWSChar c = true) → run ≠ [] →
        collapseWSAux false (run ++ rest) = ' ' :: collapseWSAux true rest) ∧
    (∀ s, List.Chain' (fun a c => ¬(isWSChar a = true ∧ isWSChar c = true))
        (collapseWhitespace s).data ∧
      ∀ c ∈ (collapseWhitespace s).data, c = ' ' ∨ isWSChar c = false) ∧
    preprocessText [] ["p"] false
      ⟨"  a  b  ", ["#text", "p", "body"], none, "p", false⟩ = some "a b " := by
  refine ⟨?_, ?_, ?_, ?_, rfl⟩
  · intro wsEls blockEls irc ctx h
    simp [preprocessText, h]
  · intro wsEls blockEls irc ctx h
    simp only [preprocessText, h, Bool.false_eq_true, if_false, isAtEdgeOfBlockStart,
      Bool.and_assoc]
  · intro run rest hws hne
    exact (collapseWSAux_run run rest hws).2 hne
  · intro s
    exact collapseWSAux_no_run false s.data

theorem claim_C4_preprocess_text_witness :
    preprocessText ["pre"] ["p"] false
      ⟨" x ", ["#text", "pre"], none, "pre", false⟩ = some " x " ∧
    preprocessText [] ["p"] false
      ⟨"a\t\nb", ["#text", "body"], none, "body", true⟩ = some "a b" ∧
    collapseWSAux false ([' ', '\t'] ++ ['a']) = ' ' :: collapseWSAux true ['a'] := by
  refine ⟨?_, ?_, ?_⟩
  · exact claim_C4_preprocess_text.1 ["pre"] ["p"] false
      ⟨" x ", ["#text", "pre"], none, "pre", false⟩ rfl
  · have h := claim_C4_preprocess_text.2.1 [] ["p"] false
      ⟨"a\t\nb", ["#text", "body"], none, "body", true⟩ rfl
    rw [h]
    rfl
  · exact claim_C4_preprocess_text.2.2.1 [' ', '\t'] ['a'] (by decide) (by decide)

/-! ## Normalizer pass 2: `postprocessElement` (lines 301–316) -/

mutual

/-- Modelled from the spec: the descendant condition of `isEmpty`
(`ParserUtils`, not under `src/`) — "an element with only whitespace-element
descendants and no non-empty-element descendants, ignoring pure whitespace
text".  Element descendants must be whitespace elements that are not
non-empty elements; text descendants must be pure whitespace; other node
kinds are ignored. -/
def emptyish (wsEls nonEmptyEls : List String) : AstNode → Bool
  | .mk t nm v _ _ cs =>
    (if t == 1 then wsEls.contains nm && !(nonEmptyEls.contains nm)
     else if t == 3 then v.data.all isWSChar
     else true) && emptyishList wsEls nonEmptyEls cs

def emptyishList (wsEls nonEmptyEls : List String) : List AstNode → Bool
  | [] => true
  | c :: cs => emptyish wsEls nonEmptyEls c && emptyishList wsEls nonEmptyEls cs

end

/-- Modelled from the spec: `isEmpty(schema, nonEmptyElements,
whitespaceElements, node)` — whether every descendant of the node is
"empty-ish" in the sense above (the node itself is not examined). -/
def isEmptyAstNode (wsEls nonEmptyEls : List String) (node : AstNode) : Bool :=
  emptyishList wsEls nonEmptyEls node.children

/-- Modelled from the spec: `isPaddedWithNbsp` — the node's content is
exactly one text child holding a single non-breaking space. -/
def isPaddedWithNbsp (node : AstNode) : Bool :=
  match node.children with
  | [c] => c.type == 3 && c.value == " "
  | _ => false

/-- Modelled from the spec: `paddEmptyNode` — rewrite the node's content to a
single padding node, a break element or a non-breaking-space text node per
the `padd_empty_with_br` configuration. -/
def paddEmptyNode (settings : DomParserSettings) (node : AstNode) : AstNode :=
  if settings.padd_empty_with_br then
    node.setChildren [.mk 1 "br" "" [] false []]
  else
    node.setChildren [.mk 3 "#text" " " [] false []]

/-- What lines 301–316 do to one element in pass 2. -/
inductive PostElemAction where
  | noRule
  | removed
  | unwrapped
  | padded
  | kept
deriving DecidableEq, Repr

/-- Lines 301–316: remove-when-empty beats pad-when-empty; an empty
remove-when-empty element is detached when block-level, unwrapped otherwise;
a pad-when-empty element that is empty or nbsp-padded has its content
rewritten by `paddEmptyNode`.  Returns the action taken and the (possibly
rewritten) node. -/
def postprocessElement (schema : Schema) (settings : DomParserSettings)
    (blockEls wsEls nonEmptyEls : List String) (node : AstNode) :
    PostElemAction × AstNode :=
  match schema.getElementRule node.name with
  | none => (.noRule, node)
  | some rule =>
    let isNodeEmpty := isEmptyAstNode wsEls nonEmptyEls node
    if rule.removeEmpty && isNodeEmpty then
      if blockEls.contains node.name then (.removed, node) else (.unwrapped, node)
    else if rule.paddEmpty && (isNodeEmpty || isPaddedWithNbsp node) then
      (.padded, paddEmptyNode settings node)
    else (.kept, node)

/-- C3: for every element with a schema rule, remove-when-empty + empty gives
removal when block-level and unwrap otherwise; else pad-when-empty + (empty or
nbsp-padded) rewrites the content to a single padding child (`br` or nbsp text
per configuration); the action characterizations are exclusive, so no element
is both removed and padded in one pass. -/
theorem claim_C3_postprocess_element (schema : Schema) (settings : DomParserSettings)
    (blockEls wsEls nonEmptyEls : List String) (node : AstNode) (rule : SchemaElement)
    (hrule : schema.getElementRule node.name = some rule) :
    ((postprocessElement schema settings blockEls wsEls nonEmptyEls node).1 = .removed ↔
      (rule.removeEmpty = true ∧ isEmptyAstNode wsEls nonEmptyEls node = true ∧
        blockEls.contains node.name = true)) ∧
    ((postprocessElement schema settings blockEls wsEls nonEmptyEls node).1 = .unwrapped ↔
      (rule.removeEmpty = true ∧ isEmptyAstNode wsEls nonEmptyEls node = true ∧
        blockEls.contains node.name = false)) ∧
    ((postprocessElement schema settings blockEls wsEls nonEmptyEls node).1 = .padded ↔
      (¬(rule.removeEmpty = true ∧ isEmptyAstNode wsEls nonEmptyEls node = true) ∧
        rule.paddEmpty = true ∧
        (isEmptyAstNode wsEls nonEmptyEls node = true ∨ isPaddedWithNbsp node = true))) ∧
    ((postprocessElement schema settings blockEls wsEls nonEmptyEls node).1 = .padded →
      (postprocessElement schema settings blockEls wsEls nonEmptyEls node).2.children =
        (if settings.padd_empty_with_br then [.mk 1 "br" "" [] false []]
         else [.mk 3 "#text" " " [] false []])) ∧
    ¬((postprocessElement schema settings blockEls wsEls nonEmptyEls node).1 = .removed ∧
      (postprocessElement schema settings blockEls wsEls nonEmptyEls node).1 = .padded) := by
  simp only [postprocessElement, hrule]
  by_cases hre : (rule.removeEmpty && isEmptyAstNode wsEls nonEmptyEls node) = true
  · rw [if_pos hre]
    rw [Bool.and_eq_true] at hre
    by_cases hb : node.name ∈ blockEls
    · rw [if_pos (show blockEls.contains node.name = true by simp [hb])]
      refine ⟨by simp [hre.1, hre.2, hb], by simp [hb], by simp [hre.1, hre.2], by simp, by simp⟩
    · rw [if_neg (show ¬blockEls.contains node.name = true by simp [hb])]
      refine ⟨by simp [hb], by simp [hre.1, hre.2, hb], by simp [hre.1, hre.2], by simp, by simp⟩
  · rw [if_neg hre]
    rw [Bool.and_eq_true] at hre
    by_cases hpe : (rule.paddEmpty &&
        (isEmptyAstNode wsEls nonEmptyEls node || isPaddedWithNbsp node)) = true
    · rw [if_pos hpe]
      rw [Bool.and_eq_true, Bool.or_eq_true] at hpe
      refine ⟨?_, ?_, by simp [hre, hpe.1, hpe.2], ?_, by simp⟩
      · constructor
        · intro h
          exact absurd h (by simp)
        · rintro ⟨ha, hb, _⟩
          exact absurd ⟨ha, hb⟩ hre
      · constructor
        · intro h
          exact absurd h (by simp)
        · rintro ⟨ha, hb, _⟩
          exact absurd ⟨ha, hb⟩ hre
      · intro _
        simp only [paddEmptyNode]
        split <;> simp
    · rw [if_neg hpe]
      rw [Bool.and_eq_true, Bool.or_eq_true] at hpe
      refine ⟨?_, ?_, ?_, by simp, by simp⟩
      · constructor
        · intro h
          exact absurd h (by simp)
        · rintro ⟨ha, hb, _⟩
          exact absurd ⟨ha, hb⟩ hre
      · constructor
        · intro h
          exact absurd h (by simp)
        · rintro ⟨ha, hb, _⟩
          exact absurd ⟨ha, hb⟩ hre
      · constructor
        · intro h
          exact absurd h (by simp)
        · rintro ⟨_, hp2, hp3⟩
          exact absurd ⟨hp2, hp3⟩ hpe

/-- Schema fragment for the concrete pass-2 examples. -/
def c3Schema : Schema :=
  { elements := [("p", { removeEmpty := false, paddEmpty := true }),
                 ("b", { removeEmpty := true }),
                 ("div", { removeEmpty := true })]
    childrenMap := []
    blockElements := ["p", "div"]
    whiteSpaceElements := []
    nonEmptyElements := ["img", "br"] }

theorem claim_C3_postprocess_element_witness :
    (postprocessElement c3Schema {} ["p", "div"] [] ["img", "br"]
      (.mk 1 "p" "" [] false [])).1 = .padded ∧
    (postprocessElement c3Schema {} ["p", "div"] [] ["img", "br"]
      (.mk 1 "p" "" [] false [])).2.children = [.mk 3 "#text" " " [] false []] ∧
    (postprocessElement c3Schema {} ["p", "div"] [] ["img", "br"]
      (.mk 1 "div" "" [] false [])).1 = .removed ∧
    (postprocessElement c3Schema {} ["p", "div"] [] ["img", "br"]
      (.mk 1 "b" "" [] false [])).1 = .unwrapped := by
  have hp := claim_C3_postprocess_element c3Schema {} ["p", "div"] [] ["img", "br"]
    (.mk 1 "p" "" [] false []) { removeEmpty := false, paddEmpty := true } rfl
  have hd := claim_C3_postprocess_element c3Schema {} ["p", "div"] [] ["img", "br"]
    (.mk 1 "div" "" [] false []) { removeEmpty := true } rfl
  have hb := claim_C3_postprocess_element c3Schema {} ["p", "div"] [] ["img", "br"]
    (.mk 1 "b" "" [] false []) { removeEmpty := true } rfl
  have h1 := hp.2.2.1.mpr ⟨by simp, rfl, Or.inl rfl⟩
  refine ⟨h1, ?_, ?_, ?_⟩
  · exact (hp.2.2.2.1 h1).trans (by rfl)
  · exact hd.1.mpr ⟨rfl, rfl, rfl⟩
  · exact hb.2.1.mpr ⟨rfl, rfl, rfl⟩

/-! ## `configurePurify`'s unique-id counter (lines 95–161)

The hook substitutes the literal placeholder token in forced/default
attribute values with `mce_${uid++}`; `uid` lives in the closure created once
per parser instance, starting at 0, and is never reset by `parse`. -/

/-- Decimal digits of a natural number (the character list underlying
`Nat.repr`). -/
def digitsOf (n : Nat) : List Char :=
  if _h : n < 10 then [Nat.digitChar n]
  else digitsOf (n / 10) ++ [Nat.digitChar (n % 10)]
termination_by n
decreasing_by
  exact Nat.div_lt_self (by omega) (by omega)

theorem toDigitsCore_eq_digitsOf :
    ∀ (f n : Nat) (ds : List Char), n < f →
      Nat.toDigitsCore 10 f n ds = digitsOf n ++ ds := by
  intro f
  induction f with
  | zero =>
    intro n ds h
    omega
  | succ f ih =>
    intro n ds h
    simp only [Nat.toDigitsCore]
    by_cases h0 : n / 10 = 0
    · rw [if_pos h0]
      have hn : n < 10 := by omega
      rw [digitsOf, dif_pos hn, Nat.mod_eq_of_lt hn]
      rfl
    · rw [if_neg h0]
      have hq : 10 * (n / 10) ≤ n := Nat.mul_div_le n 10
      rw [ih (n / 10) _ (by omega)]
      have hdig : digitsOf n = digitsOf (n / 10) ++ [Nat.digitChar (n % 10)] := by
        rw [digitsOf, dif_neg (by omega : ¬n < 10)]
      rw [hdig, List.append_assoc]
      rfl

/-- Evaluate a decimal digit string back to the number. -/
def decodeDigits (l : List Char) : Nat :=
  l.foldl (fun a c => 10 * a + (c.toNat - 48)) 0

theorem digitChar_toNat (d : Nat) (h : d < 10) : (Nat.digitChar d).toNat - 48 = d := by
  interval_cases d <;> rfl

theorem decodeDigits_digitsOf (n : Nat) : decodeDigits (digitsOf n) = n := by
  induction n using Nat.strong_induction_on with
  | _ n ih =>
    rw [digitsOf]
    by_cases h : n < 10
    · rw [dif_pos h]
      simp [decodeDigits, digitChar_toNat n h]
    · rw [dif_neg h]
      have hq : 10 * (n / 10) ≤ n := Nat.mul_div_le n 10
      have hdiv_lt : n / 10 < n := Nat.div_lt_self (by omega) (by omega)
      have hmod : n % 10 < 10 := Nat.mod_lt _ (by omega)
      unfold decodeDigits
      rw [List.foldl_append]
      have hih := ih (n / 10) hdiv_lt
      unfold decodeDigits at hih
      rw [hih]
      simp only [List.foldl_cons, List.foldl_nil]
      rw [digitChar_toNat _ hmod]
      omega

theorem repr_eq_digitsOf (n : Nat) : Nat.repr n = ⟨digitsOf n⟩ := by
  show (Nat.toDigits 10 n).asString = _
  rw [Nat.toDigits, toDigitsCore_eq_digitsOf (n + 1) n [] (by omega)]
  simp [List.asString]

theorem natRepr_injective : Function.Injective Nat.repr := by
  intro n m h
  rw [repr_eq_digitsOf, repr_eq_digitsOf] at h
  have hdata : digitsOf n = digitsOf m := congrArg String.data h
  calc n = decodeDigits (digitsOf n) := (decodeDigits_digitsOf n).symm
    _ = decodeDigits (digitsOf m) := by rw [hdata]
    _ = m := decodeDigits_digitsOf m

/-- `mce_${uid}` (line 125 / 129). -/
def mintedId (n : Nat) : String := "mce_" ++ Nat.repr n

theorem mintedId_injective : Function.Injective mintedId := by
  intro n m h
  unfold mintedId at h
  have hdata := congrArg String.data h
  rw [String.data_append, String.data_append] at hdata
  have := List.append_cancel_left hdata
  apply natRepr_injective
  cases hn : Nat.repr n with
  | mk l =>
    cases hm : Nat.repr m with
    | mk l' =>
      rw [hn, hm] at this
      simp at this
      rw [this]

/-- `ele.setAttribute(name, value)`: overwrite in place when present, append
otherwise. -/
def setAttributeJs (attrs : List (String × String)) (name value : String) :
    List (String × String) :=
  if attrs.any (·.1 == name) then
    attrs.map (fun p => if p.1 == name then (name, value) else p)
  else attrs ++ [(name, value)]

def hasAttributeJs (attrs : List (String × String)) (name : String) : Bool :=
  attrs.any (·.1 == name)

/-- Line 124–126: apply one forced attribute —
`ele.setAttribute(attr.name, attr.value === '\x7b$uid\x7d' ? mce_uid++ : attr.value)`.
The accumulator is (element attributes, uid, minted ids so far); the minted
list instruments the substitutions performed, in order. -/
def applyForcedAttr (acc : List (String × String) × Nat × List String)
    (attr : String × String) : List (String × String) × Nat × List String :=
  if attr.2 == "\x7b$uid\x7d" then
    (setAttributeJs acc.1 attr.1 (mintedId acc.2.1), acc.2.1 + 1,
      acc.2.2 ++ [mintedId acc.2.1])
  else
    (setAttributeJs acc.1 attr.1 attr.2, acc.2.1, acc.2.2)

/-- Lines 127–131: a default attribute is applied — with the same placeholder
substitution — only when the element does not already carry it. -/
def applyDefaultAttr (acc : List (String × String) × Nat × List String)
    (attr : String × String) : List (String × String) × Nat × List String :=
  if hasAttributeJs acc.1 attr.1 then acc else applyForcedAttr acc attr

structure SanitizeElementResult where
  attrs : List (String × String)
  uid : Nat
  minted : List String
  unwrapped : Bool

/-- Lines 114–142: the `uponSanitizeElement` hook for one element: no rule —
untouched; otherwise forced then default attributes are applied (minting ids
for placeholder values), and the element is unwrapped when a required
attribute is missing or when `removeEmptyAttrs` applies to an attribute-less
element. -/
def uponSanitizeElement (schema : Schema) (tagName : String)
    (attrs0 : List (String × String)) (uid0 : Nat) : SanitizeElementResult :=
  match schema.getElementRule tagName with
  | none => ⟨attrs0, uid0, [], false⟩
  | some rule =>
    let d := rule.attributesDefault.foldl applyDefaultAttr
      (rule.attributesForced.foldl applyForcedAttr (attrs0, uid0, []))
    let unwrapped :=
      (match rule.attributesRequired with
        | some req => !req.any (fun a => hasAttributeJs d.1 a)
        | none => false)
      || (rule.removeEmptyAttrs && d.1.isEmpty)
    ⟨d.1, d.2.1, d.2.2, unwrapped⟩

/-- The element-hook invocations of one `parse` call (tag name and incoming
attributes per sanitized element), threading the instance's uid counter. -/
def runElementHooks (schema : Schema) (inputs : List (String × List (String × String)))
    (uid0 : Nat) : List String × Nat :=
  inputs.foldl
    (fun acc inp =>
      let r := uponSanitizeElement schema inp.1 inp.2 acc.2
      (acc.1 ++ r.minted, r.uid))
    ([], uid0)

/-- Line 97: `let uid = 0`, run once per parser instance by
`configurePurify`. -/
def configurePurifyInitialUid : Nat := 0

/-- The ids minted from counter `u` onward: `mce_u, mce_(u+1), …`. -/
def idsFrom (u k : Nat) : List String := (List.range' u k).map mintedId

theorem idsFrom_zero (u : Nat) : idsFrom u 0 = [] := rfl

theorem idsFrom_succ (u k : Nat) :
    idsFrom u (k + 1) = mintedId u :: idsFrom (u + 1) k := by
  unfold idsFrom
  rw [List.range'_succ]
  rfl

theorem idsFrom_append (u k₁ k₂ : Nat) :
    idsFrom u k₁ ++ idsFrom (u + k₁) k₂ = idsFrom u (k₁ + k₂) := by
  unfold idsFrom
  rw [← List.map_append, List.range'_append_1, Nat.add_comm k₂ k₁]

theorem idsFrom_nodup (u k : Nat) : (idsFrom u k).Nodup := by
  unfold idsFrom
  exact (List.nodup_range' u k).map mintedId_injective

theorem applyForcedAttr_step (a : List (String × String)) (u : Nat) (m : List String)
    (attr : String × String) :
    applyForcedAttr (a, u, m) attr =
      if (attr.2 == "\x7b$uid\x7d") = true then
        (setAttributeJs a attr.1 (mintedId u), u + 1, m ++ [mintedId u])
      else (setAttributeJs a attr.1 attr.2, u, m) := rfl

theorem foldl_applyForcedAttr_minted (l : List (String × String)) :
    ∀ (a : List (String × String)) (u : Nat) (m : List String),
      ∃ k, (l.foldl applyForcedAttr (a, u, m)).2.2 = m ++ idsFrom u k ∧
        (l.foldl applyForcedAttr (a, u, m)).2.1 = u + k := by
  induction l with
  | nil =>
    intro a u m
    exact ⟨0, by simp [idsFrom_zero], by simp⟩
  | cons attr rest ih =>
    intro a u m
    rw [List.foldl_cons, applyForcedAttr_step]
    by_cases hp : (attr.2 == "\x7b$uid\x7d") = true
    · rw [if_pos hp]
      obtain ⟨k, hm, hu⟩ := ih (setAttributeJs a attr.1 (mintedId u)) (u + 1)
        (m ++ [mintedId u])
      refine ⟨k + 1, ?_, ?_⟩
      · have h1 : idsFrom u 1 = [mintedId u] := by
          rw [idsFrom_succ]
          rfl
        rw [hm, List.append_assoc, ← h1, idsFrom_append, Nat.add_comm 1 k]
      · rw [hu]
        omega
    · rw [if_neg hp]
      exact ih (setAttributeJs a attr.1 attr.2) u m

theorem applyDefaultAttr_step (a : List (String × String)) (u : Nat) (m : List String)
    (attr : String × String) :
    applyDefaultAttr (a, u, m) attr =
      if hasAttributeJs a attr.1 = true then (a, u, m)
      else if (attr.2 == "\x7b$uid\x7d") = true then
        (setAttributeJs a attr.1 (mintedId u), u + 1, m ++ [mintedId u])
      else (setAttributeJs a attr.1 attr.2, u, m) := rfl

theorem foldl_applyDefaultAttr_minted (l : List (String × String)) :
    ∀ (a : List (String × String)) (u : Nat) (m : List String),
      ∃ k, (l.foldl applyDefaultAttr (a, u, m)).2.2 = m ++ idsFrom u k ∧
        (l.foldl applyDefaultAttr (a, u, m)).2.1 = u + k := by
  induction l with
  | nil =>
    intro a u m
    exact ⟨0, by simp [idsFrom_zero], by simp⟩
  | cons attr rest ih =>
    intro a u m
    rw [List.foldl_cons, applyDefaultAttr_step]
    by_cases hh : hasAttributeJs a attr.1 = true
    · rw [if_pos hh]
      exact ih a u m
    · rw [if_neg hh]
      by_cases hp : (attr.2 == "\x7b$uid\x7d") = true
      · rw [if_pos hp]
        obtain ⟨k, hm, hu⟩ := ih (setAttributeJs a attr.1 (mintedId u)) (u + 1)
          (m ++ [mintedId u])
        refine ⟨k + 1, ?_, ?_⟩
        · have h1 : idsFrom u 1 = [mintedId u] := by
            rw [idsFrom_succ]
            rfl
          rw [hm, List.append_assoc, ← h1, idsFrom_append, Nat.add_comm 1 k]
        · rw [hu]
          omega
      · rw [if_neg hp]
        exact ih (setAttributeJs a attr.1 attr.2) u m

theorem uponSanitizeElement_minted (schema : Schema) (tagName : String)
    (attrs0 : List (String × String)) (uid0 : Nat) :
    ∃ k, (uponSanitizeElement schema tagName attrs0 uid0).minted = idsFrom uid0 k ∧
      (uponSanitizeElement schema tagName attrs0 uid0).uid = uid0 + k := by
  cases hrule : schema.getElementRule tagName with
  | none =>
    simp only [uponSanitizeElement, hrule]
    exact ⟨0, by simp [idsFrom_zero], by simp⟩
  | some rule =>
    obtain ⟨k₁, hm₁, hu₁⟩ :=
      foldl_applyForcedAttr_minted rule.attributesForced attrs0 uid0 []
    obtain ⟨k₂, hm₂, hu₂⟩ := foldl_applyDefaultAttr_minted rule.attributesDefault
      (rule.attributesForced.foldl applyForcedAttr (attrs0, uid0, [])).1
      (rule.attributesForced.foldl applyForcedAttr (attrs0, uid0, [])).2.1
      (rule.attributesForced.foldl applyForcedAttr (attrs0, uid0, [])).2.2
    have hd2 : ((rule.attributesDefault.foldl applyDefaultAttr
        (rule.attributesForced.foldl applyForcedAttr (attrs0, uid0, [])))).2.2
        = idsFrom uid0 (k₁ + k₂) := by
      rw [hm₂, hm₁, hu₁, List.nil_append, idsFrom_append]
    have hd1 : ((rule.attributesDefault.foldl applyDefaultAttr
        (rule.attributesForced.foldl applyForcedAttr (attrs0, uid0, [])))).2.1
        = uid0 + (k₁ + k₂) := by
      rw [hu₂, hu₁]
      omega
    refine ⟨k₁ + k₂, ?_, ?_⟩ <;>
    · simp only [uponSanitizeElement, hrule]
      first
      | exact hd2
      | exact hd1

theorem runElementHooks_minted (schema : Schema)
    (inputs : List (String × List (String × String))) :
    ∀ (m0 : List String) (uid0 : Nat),
      ∃ k, (inputs.foldl
          (fun acc inp =>
            let r := uponSanitizeElement schema inp.1 inp.2 acc.2
            (acc.1 ++ r.minted, r.uid)) (m0, uid0)) = (m0 ++ idsFrom uid0 k, uid0 + k) := by
  induction inputs with
  | nil =>
    intro m0 uid0
    exact ⟨0, by simp [idsFrom_zero]⟩
  | cons inp rest ih =>
    intro m0 uid0
    rw [List.foldl_cons]
    obtain ⟨k₁, hm₁, hu₁⟩ := uponSanitizeElement_minted schema inp.1 inp.2 uid0
    simp only [hm₁, hu₁]
    obtain ⟨k₂, hrest⟩ := ih (m0 ++ idsFrom uid0 k₁) (uid0 + k₁)
    refine ⟨k₁ + k₂, ?_⟩
    rw [hrest, List.append_assoc, idsFrom_append]
    congr 1
    omega

/-- C7: placeholder-valued forced/default attributes receive `mce_${uid++}`:
within a parser instance the minted ids from counter `u` form the consecutive
block `mce_u, mce_(u+1), …` and are pairwise distinct; the counter threads
across successive `parse` calls on one instance (so ids of two successive
calls are jointly distinct); a fresh instance starts the counter at 0. -/
theorem claim_C7_unique_id_counter :
    (∀ (schema : Schema) inputs uid0,
        ∃ k, runElementHooks schema inputs uid0 = (idsFrom uid0 k, uid0 + k)) ∧
    (∀ (schema : Schema) inputs uid0,
        (runElementHooks schema inputs uid0).1.Nodup) ∧
    (∀ (schema : Schema) xs ys uid0,
        ((runElementHooks schema xs uid0).1 ++
          (runElementHooks schema ys (runElementHooks schema xs uid0).2).1).Nodup) ∧
    (∀ (a : List (String × String)) (u : Nat) (m : List String) (name : String),
        applyForcedAttr (a, u, m) (name, "\x7b$uid\x7d") =
          (setAttributeJs a name (mintedId u), u + 1, m ++ [mintedId u])) ∧
    configurePurifyInitialUid = 0 := by
  have hrun : ∀ (schema : Schema) inputs uid0,
      ∃ k, runElementHooks schema inputs uid0 = (idsFrom uid0 k, uid0 + k) := by
    intro schema inputs uid0
    obtain ⟨k, h⟩ := runElementHooks_minted schema inputs [] uid0
    exact ⟨k, by rw [runElementHooks, h, List.nil_append]⟩
  refine ⟨hrun, ?_, ?_, ?_, rfl⟩
  · intro schema inputs uid0
    obtain ⟨k, h⟩ := hrun schema inputs uid0
    rw [h]
    exact idsFrom_nodup uid0 k
  · intro schema xs ys uid0
    obtain ⟨k₁, h₁⟩ := hrun schema xs uid0
    obtain ⟨k₂, h₂⟩ := hrun schema ys (runElementHooks schema xs uid0).2
    rw [h₁] at h₂ ⊢
    simp only at h₂ ⊢
    rw [h₂]
    simp only
    rw [idsFrom_append]
    exact idsFrom_nodup uid0 (k₁ + k₂)
  · intro a u m name
    unfold applyForcedAttr
    rw [if_pos (by simp)]

/-- Schema fragment with a placeholder-valued forced attribute, as the `a`
rule of the default schema declares for `data-mce-href`-style bookkeeping. -/
def c7Schema : Schema :=
  { elements := [("a", { attributesForced := [("data-mce-id", "\x7b$uid\x7d")] })]
    childrenMap := []
    blockElements := []
    whiteSpaceElements := []
    nonEmptyElements := [] }

theorem claim_C7_unique_id_counter_witness :
    (runElementHooks c7Schema [("a", []), ("a", [])] 0).1.Nodup ∧
    ((runElementHooks c7Schema [("a", []), ("a", [])] 0).1 ++
      (runElementHooks c7Schema [("a", [])]
        (runElementHooks c7Schema [("a", []), ("a", [])] 0).2).1).Nodup ∧
    applyForcedAttr ([], 5, []) ("data-mce-id", "\x7b$uid\x7d") =
      (setAttributeJs [] "data-mce-id" (mintedId 5), 6, [mintedId 5]) := by
  exact ⟨claim_C7_unique_id_counter.2.1 c7Schema [("a", []), ("a", [])] 0,
    claim_C7_unique_id_counter.2.2.1 c7Schema [("a", []), ("a", [])] [("a", [])] 0,
    claim_C7_unique_id_counter.2.2.2.1 [] 5 [] "data-mce-id"⟩

end TinyDomParser
